import Mathlib

set_option autoImplicit false

set_option maxRecDepth 4000

/-!
Verification development for the QDirStat tree core (DirInfo) and the
Settings migration helpers (Settings.cpp).

The DirInfo implementation file is not part of the sources at hand (only the
class declaration in DirInfo.h is); every operation of the tree core is
therefore modelled from the specification text, as indicated by the
doc comments below.  Settings.cpp is present and its functions are
translated directly.
-/

namespace QDirStat

/-- Read state of a directory scan (DirInfo.h lines 295-312). -/
inductive KDirReadState where
  | queued
  | reading
  | finished
  | aborted
  | error
deriving DecidableEq, Repr

/-- Intrinsic attributes of a filesystem entry: size in bytes, allocated
blocks, modification time. -/
structure Attr where
  size : Nat
  blocks : Nat
  mtime : Nat
deriving DecidableEq, Repr

/-- The six cached summary fields of a DirInfo (DirInfo.h lines 359-366). -/
structure Cache where
  totalSize : Nat
  totalBlocks : Nat
  totalItems : Nat
  totalSubDirs : Nat
  totalFiles : Nat
  latestMtime : Nat
deriving DecidableEq, Repr

mutual

/-- A tree node: a plain (non-directory) entry, or a directory. -/
inductive FileInfo : Type where
  | file (attr : Attr)
  | dir (d : DirInfo)
deriving DecidableEq

/-- Modelled from the spec: a container node (DirInfo).  Fields follow the
data members of DirInfo.h lines 349-370: entry attributes, the dot-entry
flag, the exclusion flag, the pending-read-jobs counter, the child list,
the optional dot entry, the six cached aggregates, the summary-dirty flag
and the read state. -/
inductive DirInfo : Type where
  | mk (attr : Attr) (dotFlag : Bool) (exclFlag : Bool) (pendingJobs : Nat)
       (childs : ChildList) (dotE : DotEntry) (cached : Cache)
       (dirtyFlag : Bool) (state : KDirReadState)
deriving DecidableEq

/-- The singly-linked child list of a DirInfo (the firstChild / next chain). -/
inductive ChildList : Type where
  | nil
  | cons (head : FileInfo) (tail : ChildList)
deriving DecidableEq

/-- The optional dot entry of a DirInfo. -/
inductive DotEntry : Type where
  | none
  | some (d : DirInfo)
deriving DecidableEq

end

def DirInfo.attr : DirInfo → Attr
  | .mk a _ _ _ _ _ _ _ _ => a

/-- DirInfo.h line 234: the dot-entry flag. -/
def DirInfo.isDotEntry : DirInfo → Bool
  | .mk _ f _ _ _ _ _ _ _ => f

/-- DirInfo.h line 143: the exclusion flag. -/
def DirInfo.isExcluded : DirInfo → Bool
  | .mk _ _ e _ _ _ _ _ _ => e

/-- DirInfo.h line 189: the pending-read-jobs counter of this subtree. -/
def DirInfo.pendingReadJobs : DirInfo → Nat
  | .mk _ _ _ p _ _ _ _ _ => p

def DirInfo.children : DirInfo → ChildList
  | .mk _ _ _ _ cs _ _ _ _ => cs

/-- DirInfo.h line 221: the dot entry of this node, if any. -/
def DirInfo.dotEntry : DirInfo → DotEntry
  | .mk _ _ _ _ _ de _ _ _ => de

def DirInfo.cache : DirInfo → Cache
  | .mk _ _ _ _ _ _ c _ _ => c

/-- DirInfo.h line 368: the dirty flag for the cached summary values. -/
def DirInfo.summaryDirty : DirInfo → Bool
  | .mk _ _ _ _ _ _ _ dy _ => dy

/-- DirInfo.h line 306: the current state of the directory reading process. -/
def DirInfo.readState : DirInfo → KDirReadState
  | .mk _ _ _ _ _ _ _ _ st => st

def FileInfo.isDir : FileInfo → Bool
  | .file _ => false
  | .dir _ => true

/-- Query results of a plain (non-directory) FileInfo: the FileInfo base
class returns its own size / blocks / mtime and zero for all counts. -/
def Attr.leafCache (a : Attr) : Cache :=
  ⟨a.size, a.blocks, 0, 0, 0, a.mtime⟩

/-- Modelled from the spec: the seed of a container's summary recomputation.
The container contributes its own entry size, blocks and mtime; all counts
exclude the container itself. -/
def Cache.init (a : Attr) : Cache :=
  ⟨a.size, a.blocks, 0, 0, 0, a.mtime⟩

/-- Modelled from the spec: (section 4.1): the contribution of one direct
child from the child list during summary recomputation.  Items gain 1 plus
the child's own item total; a directory child additionally counts as one
subdirectory; a non-directory child additionally counts as one file. -/
def Cache.addChild (acc : Cache) (childIsDir : Bool) (c : Cache) : Cache :=
  ⟨acc.totalSize + c.totalSize,
   acc.totalBlocks + c.totalBlocks,
   acc.totalItems + c.totalItems + 1,
   acc.totalSubDirs + c.totalSubDirs + (if childIsDir then 1 else 0),
   acc.totalFiles + c.totalFiles + (if childIsDir then 0 else 1),
   max acc.latestMtime c.latestMtime⟩

/-- Modelled from the spec: (sections 4.1 and 8): the contribution of the dot
entry during summary recomputation.  The dot entry's contents are included
but the dot entry itself is not counted as an item nor as a subdirectory. -/
def Cache.addDot (acc : Cache) (c : Cache) : Cache :=
  ⟨acc.totalSize + c.totalSize,
   acc.totalBlocks + c.totalBlocks,
   acc.totalItems + c.totalItems,
   acc.totalSubDirs + c.totalSubDirs,
   acc.totalFiles + c.totalFiles,
   max acc.latestMtime c.latestMtime⟩

/-- The summary values a node currently answers with, without any
recomputation: a plain file answers from its own attributes, a directory
answers from its cached summary fields. -/
def FileInfo.queryCache : FileInfo → Cache
  | .file a => a.leafCache
  | .dir d => d.cache

/-- One pass over the child list, accumulating each child's current summary
values into the accumulator. -/
def ChildList.sumCaches : ChildList → Cache → Cache
  | .nil, acc => acc
  | .cons c t, acc => t.sumCaches (acc.addChild c.isDir c.queryCache)

/-- Modelled from the spec: (section 4.1, DirInfo.h lines 328-334 recalc):
recompute the six summary fields from the direct children's current values
(one pass; subdirectories contribute via their cached totals). -/
def DirInfo.recalcCache : DirInfo → Cache
  | .mk a _ _ _ cs de _ _ _ =>
    let base := cs.sumCaches (Cache.init a)
    match de with
    | .none => base
    | .some dd => base.addDot dd.cache

mutual

/-- Recompute a node's summary if it is dirty (the shared prologue of every
total* query: if summaryDirty then recalc).  Clean nodes are returned
unchanged; dirty nodes first refresh their children, then recompute from
the children's now-current caches and clear the dirty flag. -/
def FileInfo.fix : FileInfo → FileInfo
  | .file a => .file a
  | .dir d => .dir d.fix

/-- Modelled from the spec: (section 4.1): recalc-if-dirty for a container. -/
def DirInfo.fix : DirInfo → DirInfo
  | .mk a f e p cs de c dy st =>
    if dy then
      let cs2 := cs.fixAll
      let de2 := de.fixDot
      .mk a f e p cs2 de2 ((DirInfo.mk a f e p cs2 de2 c dy st).recalcCache) false st
    else
      .mk a f e p cs de c dy st

def ChildList.fixAll : ChildList → ChildList
  | .nil => .nil
  | .cons h t => .cons h.fix t.fixAll

def DotEntry.fixDot : DotEntry → DotEntry
  | .none => .none
  | .some d => .some d.fix

end

/-- DirInfo.h line 101 totalSize: recompute if dirty, then answer from the
cache.  Returns the answer together with the post-call node. -/
def DirInfo.totalSize (d : DirInfo) : Nat × DirInfo :=
  ((d.fix).cache.totalSize, d.fix)

/-- DirInfo.h line 108 totalBlocks. -/
def DirInfo.totalBlocks (d : DirInfo) : Nat × DirInfo :=
  ((d.fix).cache.totalBlocks, d.fix)

/-- DirInfo.h line 115 totalItems: total number of children in this subtree,
excluding this item. -/
def DirInfo.totalItems (d : DirInfo) : Nat × DirInfo :=
  ((d.fix).cache.totalItems, d.fix)

/-- DirInfo.h line 123 totalSubDirs: total number of subdirectories in this
subtree, excluding this item; dot entries are not counted. -/
def DirInfo.totalSubDirs (d : DirInfo) : Nat × DirInfo :=
  ((d.fix).cache.totalSubDirs, d.fix)

/-- DirInfo.h line 131 totalFiles. -/
def DirInfo.totalFiles (d : DirInfo) : Nat × DirInfo :=
  ((d.fix).cache.totalFiles, d.fix)

/-- DirInfo.h line 138 latestMtime. -/
def DirInfo.latestMtime (d : DirInfo) : Nat × DirInfo :=
  ((d.fix).cache.latestMtime, d.fix)

mutual

/-- The summary values of a node under a full recursive recomputation of
the live subtree (the reference semantics of section 4.1's contract). -/
def FileInfo.agg : FileInfo → Cache
  | .file a => a.leafCache
  | .dir d => d.agg

def DirInfo.agg : DirInfo → Cache
  | .mk a _ _ _ cs de _ _ _ => DotEntry.aggAdd (cs.aggSum (Cache.init a)) de

def ChildList.aggSum : ChildList → Cache → Cache
  | .nil, acc => acc
  | .cons c t, acc => t.aggSum (acc.addChild c.isDir c.agg)

def DotEntry.aggAdd : Cache → DotEntry → Cache
  | acc, .none => acc
  | acc, .some dd => acc.addDot dd.agg

end

mutual

/-- The reachable-state invariant of the caching scheme: every container
whose dirty flag is clear holds exactly the summary values a full recursive
recomputation would produce (spec section 3, invariants). -/
def FileInfo.invB : FileInfo → Bool
  | .file _ => true
  | .dir d => d.invB

def DirInfo.invB : DirInfo → Bool
  | .mk a f e p cs de c dy st =>
    (dy || decide (c = (DirInfo.mk a f e p cs de c dy st).agg))
      && cs.invAll && de.invDot

def ChildList.invAll : ChildList → Bool
  | .nil => true
  | .cons h t => h.invB && t.invAll

def DotEntry.invDot : DotEntry → Bool
  | .none => true
  | .some d => d.invB

end

mutual

/-- Number of nodes in this subtree including the node itself; dot entries
are nodes (the spec calls the dot entry a synthetic container Node), so
they are counted, as are their children. -/
def FileInfo.nodeCount : FileInfo → Nat
  | .file _ => 1
  | .dir d => 1 + d.belowCount

/-- Number of descendant nodes of a container, excluding the container
itself, counting dot entries as nodes. -/
def DirInfo.belowCount : DirInfo → Nat
  | .mk _ _ _ _ cs de _ _ _ => cs.listCount + de.dotCount

def ChildList.listCount : ChildList → Nat
  | .nil => 0
  | .cons h t => h.nodeCount + t.listCount

def DotEntry.dotCount : DotEntry → Nat
  | .none => 0
  | .some dd => 1 + dd.belowCount

end

mutual

/-- Number of nodes in this subtree including the node itself but skipping
every node that occupies a dot-entry slot (their children still count). -/
def FileInfo.itemNode : FileInfo → Nat
  | .file _ => 1
  | .dir d => 1 + d.itemBelow

/-- Number of descendant nodes of a container, excluding the container
itself and excluding dot entries themselves (children of dot entries are
counted). -/
def DirInfo.itemBelow : DirInfo → Nat
  | .mk _ _ _ _ cs de _ _ _ => cs.itemList + de.itemDot

def ChildList.itemList : ChildList → Nat
  | .nil => 0
  | .cons h t => h.itemNode + t.itemList

def DotEntry.itemDot : DotEntry → Nat
  | .none => 0
  | .some dd => dd.itemBelow

end

mutual

/-- Number of directory nodes in this subtree including the node itself if
it is a directory, skipping nodes that occupy a dot-entry slot. -/
def FileInfo.subDirNode : FileInfo → Nat
  | .file _ => 0
  | .dir d => 1 + d.subDirBelow

/-- Number of descendant container nodes of a container, excluding the
container itself and excluding dot entries (containers below a dot entry
would still be counted). -/
def DirInfo.subDirBelow : DirInfo → Nat
  | .mk _ _ _ _ cs de _ _ _ => cs.subDirList + de.subDirDot

def ChildList.subDirList : ChildList → Nat
  | .nil => 0
  | .cons h t => h.subDirNode + t.subDirList

def DotEntry.subDirDot : DotEntry → Nat
  | .none => 0
  | .some dd => dd.subDirBelow

end

/-- True for the two non-terminal scan states queued and reading
(spec section 4.3). -/
def KDirReadState.nonTerminal : KDirReadState → Bool
  | .queued => true
  | .reading => true
  | .finished => false
  | .aborted => false
  | .error => false

mutual

/-- Every node of this subtree (itself included) has a terminal scan
state. -/
def FileInfo.allTerminal : FileInfo → Bool
  | .file _ => true
  | .dir d => d.allTerminal

def DirInfo.allTerminal : DirInfo → Bool
  | .mk _ _ _ _ cs de _ _ st =>
    !st.nonTerminal && cs.allTerminalL && de.allTerminalD

def ChildList.allTerminalL : ChildList → Bool
  | .nil => true
  | .cons h t => h.allTerminal && t.allTerminalL

def DotEntry.allTerminalD : DotEntry → Bool
  | .none => true
  | .some dd => dd.allTerminal

end

/-- A fully settled subtree (spec glossary): the container's pending-job
counter is zero and every scan state in the subtree is terminal. -/
def DirInfo.settled (d : DirInfo) : Bool :=
  decide (d.pendingReadJobs = 0) && d.allTerminal

/-- Modelled from the spec: (section 4.3, DirInfo.h lines 175-181): a
container is busy if it is not excluded and either its own state is queued
or reading, or some descendant read job is still outstanding. -/
def DirInfo.isBusy (d : DirInfo) : Bool :=
  !d.isExcluded && (d.readState.nonTerminal || decide (0 < d.pendingReadJobs))

/-- Modelled from the spec: (section 4.3, DirInfo.h lines 168-173):
isFinished is the negation of isBusy. -/
def DirInfo.isFinished (d : DirInfo) : Bool :=
  !d.isBusy

/-- Does the child list contain at least one directory child? -/
def ChildList.hasDirChild : ChildList → Bool
  | .nil => false
  | .cons h t => h.isDir || t.hasDirChild

/-- Modelled from the spec: (section 4.2): the dot entry created lazily for
the first non-directory child: a synthetic container with zero attributes,
dot-entry flag set, holding that child, marked dirty. -/
def DirInfo.newDotEntry (child : FileInfo) : DirInfo :=
  .mk ⟨0, 0, 0⟩ true false 0 (.cons child .nil) .none ⟨0, 0, 0, 0, 0, 0⟩ true .finished

/-- Modelled from the spec: (sections 4.2 and 4.4, DirInfo.h lines 206-212):
insert a child.  An excluded container refuses further ingestion (logic
error).  A directory child goes into the child list directly.  A
non-directory child goes into the dot entry when one exists; when none
exists it triggers lazy dot-entry creation if the container has at least
one subdirectory child, and goes into the child list otherwise.  The
childAdded notification marks the container (and the dot entry, when the
child lands there) dirty. -/
def DirInfo.insertChild : DirInfo → FileInfo → Except Unit DirInfo
  | .mk a f e p cs de c _ st, child =>
    if e then Except.error ()
    else if child.isDir then
      Except.ok (.mk a f e p (.cons child cs) de c true st)
    else
      match de with
      | .some (.mk da df dex dp dcs dde dc _ dst) =>
        Except.ok (.mk a f e p cs
          (.some (.mk da df dex dp (.cons child dcs) dde dc true dst)) c true st)
      | .none =>
        if cs.hasDirChild then
          Except.ok (.mk a f e p cs (.some (DirInfo.newDotEntry child)) c true st)
        else
          Except.ok (.mk a f e p (.cons child cs) .none c true st)

/-- One navigation step inside the tree: into the n-th entry of the child
list, or into the dot entry. -/
inductive Step where
  | intoChild (n : Nat)
  | intoDot
deriving DecidableEq, Repr

def ChildList.get : ChildList → Nat → Option FileInfo
  | .nil, _ => Option.none
  | .cons h _, 0 => Option.some h
  | .cons _ t, n+1 => t.get n

def ChildList.set : ChildList → Nat → FileInfo → ChildList
  | .nil, _, _ => .nil
  | .cons _ t, 0, x => .cons x t
  | .cons h t, n+1, x => .cons h (t.set n x)

/-- The container one navigation step below this one, if any. -/
def DirInfo.subDir (d : DirInfo) : Step → Option DirInfo
  | .intoChild n =>
    match d.children.get n with
    | Option.some (.dir dd) => Option.some dd
    | _ => Option.none
  | .intoDot =>
    match d.dotEntry with
    | .some dd => Option.some dd
    | .none => Option.none

/-- Replace the container one step below, keeping this node's dirty flag. -/
def DirInfo.withSubK : DirInfo → Step → DirInfo → DirInfo
  | .mk a f e p cs de c dy st, .intoChild n, x =>
    .mk a f e p (cs.set n (.dir x)) de c dy st
  | .mk a f e p cs _ c dy st, .intoDot, x => .mk a f e p cs (.some x) c dy st

/-- Replace the container one step below and mark this node dirty (the
childAdded notification propagating up the ancestor chain). -/
def DirInfo.withSubDirty : DirInfo → Step → DirInfo → DirInfo
  | .mk a f e p cs de c _ st, .intoChild n, x =>
    .mk a f e p (cs.set n (.dir x)) de c true st
  | .mk a f e p cs _ c _ st, .intoDot, x => .mk a f e p cs (.some x) c true st

/-- The container at the end of a navigation path, if the path is valid. -/
def DirInfo.nodeAt : DirInfo → List Step → Option DirInfo
  | d, [] => Option.some d
  | d, s :: rest =>
    match d.subDir s with
    | Option.some dd => dd.nodeAt rest
    | Option.none => Option.none

/-- Every container along the path, the endpoint included, has its summary
marked dirty. -/
def DirInfo.dirtyChain : DirInfo → List Step → Bool
  | d, [] => d.summaryDirty
  | d, s :: rest =>
    d.summaryDirty &&
      (match d.subDir s with
       | Option.some dd => dd.dirtyChain rest
       | Option.none => false)

/-- Modelled from the spec: (section 4.4 attachChild): insert a child into
the container at the given path; every ancestor passed on the way is marked
dirty (the childAdded notification). -/
def DirInfo.attachAt : DirInfo → List Step → FileInfo → Except Unit DirInfo
  | d, [], c => d.insertChild c
  | d, s :: rest, c =>
    match d.subDir s with
    | Option.none => Except.error ()
    | Option.some dd =>
      match dd.attachAt rest c with
      | Except.error u => Except.error u
      | Except.ok dd2 => Except.ok (d.withSubDirty s dd2)

def DirInfo.addPending : DirInfo → DirInfo
  | .mk a f e p cs de c dy st => .mk a f e (p + 1) cs de c dy st

def DirInfo.subPending : DirInfo → DirInfo
  | .mk a f e p cs de c dy st => .mk a f e (p - 1) cs de c dy st

/-- Modelled from the spec: (section 4.3, DirInfo.h lines 263-266
readJobAdded): a new read job on the directory at the given path adds one
to the pending counter of every strict ancestor, not to the directory's
own counter. -/
def DirInfo.readJobAddedAt : DirInfo → List Step → Option DirInfo
  | d, [] => Option.some d
  | d, s :: rest =>
    match d.subDir s with
    | Option.none => Option.none
    | Option.some dd =>
      match dd.readJobAddedAt rest with
      | Option.none => Option.none
      | Option.some dd2 => Option.some ((d.withSubK s dd2).addPending)

/-- Modelled from the spec: (section 4.3, DirInfo.h lines 268-272
readJobFinished): a finished read job subtracts one from the pending
counter of every strict ancestor. -/
def DirInfo.readJobFinishedAt : DirInfo → List Step → Option DirInfo
  | d, [] => Option.some d
  | d, s :: rest =>
    match d.subDir s with
    | Option.none => Option.none
    | Option.some dd =>
      match dd.readJobFinishedAt rest with
      | Option.none => Option.none
      | Option.some dd2 => Option.some ((d.withSubK s dd2).subPending)

/-- Modelled from the spec: (section 4.3, DirInfo.h lines 274-278
readJobAborted): same propagation discipline as readJobFinished. -/
def DirInfo.readJobAbortedAt (d : DirInfo) (p : List Step) : Option DirInfo :=
  d.readJobFinishedAt p

/-- The pending-read-jobs counter of the container at the given path. -/
def DirInfo.pendingAt : DirInfo → List Step → Option Nat
  | d, [] => Option.some d.pendingReadJobs
  | d, s :: rest =>
    match d.subDir s with
    | Option.some dd => dd.pendingAt rest
    | Option.none => Option.none

def ChildList.concat : ChildList → ChildList → ChildList
  | .nil, l => l
  | .cons h t, l => .cons h (t.concat l)

/-- Modelled from the spec: (section 4.2, DirInfo.h lines 336-342): delete a
dot entry that has no children; if the dot entry has children but the
container has no subdirectory child, reparent every dot-entry child onto
the container and delete the then-empty dot entry; otherwise keep the dot
entry. -/
def DirInfo.cleanupDotEntries : DirInfo → DirInfo
  | .mk a f e p cs de c dy st =>
    match de with
    | .none => .mk a f e p cs .none c dy st
    | .some (.mk _ _ _ _ dcs _ _ _ _) =>
      match dcs with
      | .nil => .mk a f e p cs .none c dy st
      | .cons h t =>
        if cs.hasDirChild then .mk a f e p cs de c dy st
        else .mk a f e p (cs.concat (.cons h t)) .none c dy st

/-- Modelled from the spec: (section 4.3, DirInfo.h lines 280-287):
finalizeLocal performs the dot-entry cleanup for one container. -/
def DirInfo.finalizeLocal (d : DirInfo) : DirInfo :=
  d.cleanupDotEntries

def DirInfo.setReadState : DirInfo → KDirReadState → DirInfo
  | .mk a f e p cs de c dy _, st => .mk a f e p cs de c dy st

/-- Modelled from the spec: (section 6): beginRead puts the container into
the reading state (the matching readJobAdded touches only strict ancestors,
of which the root has none). -/
def DirInfo.beginReadLocal (d : DirInfo) : DirInfo :=
  d.setReadState .reading

/-- Modelled from the spec: (section 6): endRead records the terminal
outcome and finalizes this directory level. -/
def DirInfo.endReadLocal (d : DirInfo) (st : KDirReadState) : DirInfo :=
  (d.setReadState st).finalizeLocal

/-- The abort scenario of spec section 8: beginRead on a root, attach two
children, endRead aborted. -/
def abortScenarioRoot : Except Unit DirInfo :=
  let root : DirInfo :=
    .mk ⟨0, 0, 0⟩ false false 0 .nil .none ⟨0, 0, 0, 0, 0, 0⟩ true .queued
  match root.beginReadLocal.insertChild (.file ⟨50, 4, 10⟩) with
  | Except.error u => Except.error u
  | Except.ok r2 =>
    match r2.insertChild (.file ⟨30, 2, 20⟩) with
    | Except.error u => Except.error u
    | Except.ok r3 => Except.ok (r3.endReadLocal .aborted)

/-- A sample fully-read leaf subdirectory (size 7, 1 block, mtime 3) with a
clean, correct cache. -/
def sampleDirS : DirInfo :=
  .mk ⟨7, 1, 3⟩ false false 0 .nil .none ⟨7, 1, 0, 0, 0, 3⟩ false .finished

/-- A sample dot entry holding one file (size 50, 4 blocks, mtime 10). -/
def sampleDot : DirInfo :=
  .mk ⟨0, 0, 0⟩ true false 0 (.cons (.file ⟨50, 4, 10⟩) .nil) .none
    ⟨0, 0, 0, 0, 0, 0⟩ true .finished

/-- A sample settled container: one subdirectory child and a dot entry
holding one file. -/
def sampleTree : DirInfo :=
  .mk ⟨0, 0, 0⟩ false false 0 (.cons (.dir sampleDirS) .nil) (.some sampleDot)
    ⟨0, 0, 0, 0, 0, 0⟩ true .finished

/-- sampleTree after one read job has been registered on its subdirectory
child: only the root pending counter grew. -/
def sampleTreeJob : DirInfo :=
  .mk ⟨0, 0, 0⟩ false false 1 (.cons (.dir sampleDirS) .nil) (.some sampleDot)
    ⟨0, 0, 0, 0, 0, 0⟩ true .finished

/-- A sample excluded container in the middle of reading. -/
def sampleExcluded : DirInfo :=
  .mk ⟨1, 1, 1⟩ false true 0 .nil .none ⟨0, 0, 0, 0, 0, 0⟩ true .reading

/-- sampleDot after one more file (size 5, 2 blocks, mtime 30) has been
routed into it. -/
def sampleDotPlus : DirInfo :=
  .mk ⟨0, 0, 0⟩ true false 0
    (.cons (.file ⟨5, 2, 30⟩) (.cons (.file ⟨50, 4, 10⟩) .nil)) .none
    ⟨0, 0, 0, 0, 0, 0⟩ true .finished

/-- sampleTree after attaching the file (size 5, 2 blocks, mtime 30). -/
def sampleTreeAttached : DirInfo :=
  .mk ⟨0, 0, 0⟩ false false 0 (.cons (.dir sampleDirS) .nil)
    (.some sampleDotPlus) ⟨0, 0, 0, 0, 0, 0⟩ true .finished

end QDirStat


namespace QDirStatSettings

/-- A QSettings store at top level: the ordered list of groups, each group
a list of key-value pairs. -/
structure SettingsState where
  groups : List (String × List (String × String))
deriving DecidableEq, Repr

/-- QString::startsWith: does the string start with the given prefix
string?  Defined over the character lists. -/
def qStartsWith (s pre : String) : Bool :=
  pre.data.isPrefixOf s.data

/-- QSettings childGroups at top level: the group names. -/
def childGroups (s : SettingsState) : List String :=
  s.groups.map Prod.fst

/-- Settings::hasGroup (Settings.cpp lines 116-127): is there a toplevel
group whose name starts with the given prefix string? -/
def hasGroup (gp : String) (s : SettingsState) : Bool :=
  (childGroups s).any (fun g => qStartsWith g gp)

/-- Settings::findGroups (Settings.cpp lines 101-113): all toplevel group
names starting with the given prefix string. -/
def findGroups (gp : String) (s : SettingsState) : List String :=
  (childGroups s).filter (fun g => qStartsWith g gp)

/-- Settings::removeGroups (Settings.cpp lines 130-139): remove every
toplevel group whose name starts with the given prefix string. -/
def removeGroups (gp : String) (s : SettingsState) : SettingsState :=
  ⟨s.groups.filter (fun g => !qStartsWith g.fst gp)⟩

/-- QSettings setValue inside one group's entry list: overwrite the pairs
carrying the key, or append the pair when the key is new. -/
def setKey (l : List (String × String)) (k v : String) : List (String × String) :=
  if l.any (fun q => q.fst = k) then
    l.map (fun q => if q.fst = k then (k, v) else q)
  else l ++ [(k, v)]

/-- QSettings setValue of key k to v inside group g: update the group when
it exists, create it otherwise. -/
def setValue (s : SettingsState) (g k v : String) : SettingsState :=
  if s.groups.any (fun q => q.fst = g) then
    ⟨s.groups.map (fun q => if q.fst = g then (q.fst, setKey q.snd k v) else q)⟩
  else ⟨s.groups ++ [(g, [(k, v)])]⟩

/-- The entry list of group g (empty when the group does not exist). -/
def groupEntries (s : SettingsState) (g : String) : List (String × String) :=
  match s.groups.find? (fun q => q.fst = g) with
  | Option.some q => q.snd
  | Option.none => []

/-- QSettings allKeys inside group g. -/
def allKeys (s : SettingsState) (g : String) : List String :=
  (groupEntries s g).map Prod.fst

/-- QSettings value of key k inside group g. -/
def valueOf (s : SettingsState) (g k : String) : Option String :=
  match (groupEntries s g).find? (fun q => q.fst = k) with
  | Option.some q => Option.some q.snd
  | Option.none => Option.none

/-- The inner migration loop of Settings::moveGroups (Settings.cpp lines
161-173): beginGroup g on both sides and copy every key of the source
group into the destination group. -/
def copyGroup (src : SettingsState) (g : String) (dst : SettingsState) : SettingsState :=
  (allKeys src g).foldl
    (fun acc k =>
      match valueOf src g k with
      | Option.some v => setValue acc g k v
      | Option.none => acc)
    dst

/-- Settings::moveGroups (Settings.cpp lines 142-187).  The C++ hasGroup
check runs on the receiver object; every call site in Settings.cpp passes
the receiver as the destination (migrate() calls
moveGroups(_groupPrefix, &commonSettings, this)), so the receiver state is
the destination state.  Returns the new source and destination states. -/
def moveGroups (gp : String) (src dst : SettingsState) : SettingsState × SettingsState :=
  let dst2 :=
    if hasGroup gp dst then dst
    else (findGroups gp src).foldl (fun acc g => copyGroup src g acc) dst
  (removeGroups gp src, dst2)

/-- One observable file-ownership action of Settings::fixFileOwner. -/
inductive OwnerAction where
  | chownCall (file : String) (uid : Int) (gid : Int)
  | logWarn
deriving DecidableEq, Repr

/-- QString::toInt with base 10: the parsed integer, 0 when parsing fails. -/
def qstringToInt (s : String) : Int :=
  (s.toInt?).getD 0

/-- Settings::fixFileOwner (Settings.cpp lines 57-91): chown the file to
$SUDO_UID / $SUDO_GID when both are non-empty, otherwise only log a
warning.  The two string arguments are the values of the SUDO_UID and
SUDO_GID environment variables, empty when unset. -/
def fixFileOwner (sudoUid sudoGid filename : String) : List OwnerAction :=
  if !sudoUid.isEmpty && !sudoGid.isEmpty then
    [OwnerAction.chownCall filename (qstringToInt sudoUid) (qstringToInt sudoGid)]
  else
    [OwnerAction.logWarn]

/-- Settings::fixFileOwners (Settings.cpp lines 47-54): only when the
process runs with sudo, fix the owner of every used config file. -/
def fixFileOwners (runningWithSudo : Bool) (sudoUid sudoGid : String)
    (files : List String) : List OwnerAction :=
  if runningWithSudo then
    (files.map (fixFileOwner sudoUid sudoGid)).flatten
  else []

/-- Is the action a chown call? -/
def OwnerAction.isChown : OwnerAction → Bool
  | .chownCall _ _ _ => true
  | .logWarn => false

/-- A sample source settings state with one Cleanup_ group and one other
group. -/
def sampleSrc : SettingsState :=
  ⟨[("Cleanup_01", [("cmd", "rm")]), ("Other", [("x", "y")])]⟩

/-- A sample empty destination settings state. -/
def sampleDst : SettingsState :=
  ⟨[]⟩

end QDirStatSettings

namespace QDirStat

@[simp] theorem DirInfo.attr_mk (a f e p cs de c dy st) :
    (DirInfo.mk a f e p cs de c dy st).attr = a := rfl

@[simp] theorem DirInfo.isDotEntry_mk (a f e p cs de c dy st) :
    (DirInfo.mk a f e p cs de c dy st).isDotEntry = f := rfl

@[simp] theorem DirInfo.isExcluded_mk (a f e p cs de c dy st) :
    (DirInfo.mk a f e p cs de c dy st).isExcluded = e := rfl

@[simp] theorem DirInfo.pendingReadJobs_mk (a f e p cs de c dy st) :
    (DirInfo.mk a f e p cs de c dy st).pendingReadJobs = p := rfl

@[simp] theorem DirInfo.children_mk (a f e p cs de c dy st) :
    (DirInfo.mk a f e p cs de c dy st).children = cs := rfl

@[simp] theorem DirInfo.dotEntry_mk (a f e p cs de c dy st) :
    (DirInfo.mk a f e p cs de c dy st).dotEntry = de := rfl

@[simp] theorem DirInfo.cache_mk (a f e p cs de c dy st) :
    (DirInfo.mk a f e p cs de c dy st).cache = c := rfl

@[simp] theorem DirInfo.summaryDirty_mk (a f e p cs de c dy st) :
    (DirInfo.mk a f e p cs de c dy st).summaryDirty = dy := rfl

@[simp] theorem DirInfo.readState_mk (a f e p cs de c dy st) :
    (DirInfo.mk a f e p cs de c dy st).readState = st := rfl

/-- A clean node is returned unchanged by recalc-if-dirty. -/
theorem DirInfo.fix_of_clean (d : DirInfo) (h : d.summaryDirty = false) :
    d.fix = d := by
  match d with
  | .mk a f e p cs de c dy st =>
    simp only [DirInfo.summaryDirty_mk] at h
    subst h
    simp [DirInfo.fix]

/-- After recalc-if-dirty the dirty flag is always clear. -/
theorem DirInfo.fix_summaryDirty (d : DirInfo) : (d.fix).summaryDirty = false := by
  match d with
  | .mk a f e p cs de c dy st =>
    cases dy <;> simp [DirInfo.fix]

/-- Recalc-if-dirty is idempotent. -/
theorem DirInfo.fix_fix (d : DirInfo) : (d.fix).fix = d.fix :=
  DirInfo.fix_of_clean _ (DirInfo.fix_summaryDirty d)

theorem FileInfo.isDir_fix (t : FileInfo) : (t.fix).isDir = t.isDir := by
  match t with
  | .file a => rfl
  | .dir d => rfl

mutual

/-- Recalc-if-dirty does not change the reference summary of a node. -/
theorem FileInfo.aggNode_fix : ∀ t : FileInfo, (t.fix).agg = t.agg
  | .file _ => rfl
  | .dir d => by
    simp only [FileInfo.fix, FileInfo.agg]
    exact DirInfo.agg_fix d

theorem DirInfo.agg_fix : ∀ d : DirInfo, (d.fix).agg = d.agg
  | .mk a f e p cs de c dy st => by
    cases dy
    · simp [DirInfo.fix]
    · simp only [DirInfo.fix, if_pos]
      simp only [DirInfo.agg]
      rw [ChildList.aggSum_fix cs, DotEntry.aggAdd_fix de]

theorem ChildList.aggSum_fix : ∀ (l : ChildList) (acc : Cache),
    (l.fixAll).aggSum acc = l.aggSum acc
  | .nil, _ => rfl
  | .cons h t, acc => by
    simp only [ChildList.fixAll, ChildList.aggSum]
    rw [FileInfo.aggNode_fix h, FileInfo.isDir_fix h, ChildList.aggSum_fix t]

theorem DotEntry.aggAdd_fix : ∀ (o : DotEntry) (acc : Cache),
    DotEntry.aggAdd acc (o.fixDot) = DotEntry.aggAdd acc o
  | .none, _ => rfl
  | .some dd, acc => by
    simp only [DotEntry.fixDot, DotEntry.aggAdd]
    rw [DirInfo.agg_fix dd]

end

mutual

/-- Under the reachable-state invariant, recalc-if-dirty makes a node
answer exactly the reference summary and re-establishes the invariant. -/
theorem FileInfo.fixNode_ok : ∀ t : FileInfo, t.invB = true →
    (t.fix).queryCache = t.agg ∧ (t.fix).invB = true
  | .file a, _ => ⟨rfl, rfl⟩
  | .dir d, h => by
    simp only [FileInfo.invB] at h
    have hd := DirInfo.fix_ok d h
    simp only [FileInfo.fix, FileInfo.queryCache, FileInfo.agg, FileInfo.invB]
    exact ⟨hd.1, hd.2.2⟩

theorem DirInfo.fix_ok : ∀ d : DirInfo, d.invB = true →
    (d.fix).cache = d.agg ∧ (d.fix).summaryDirty = false ∧ (d.fix).invB = true
  | .mk a f e p cs de c dy st, h => by
    have h0 := h
    simp only [DirInfo.invB, Bool.and_eq_true, Bool.or_eq_true,
      decide_eq_true_eq] at h
    obtain ⟨⟨hcd, hcs⟩, hde⟩ := h
    have hl := ChildList.fixAll_ok cs hcs
    have ho := DotEntry.fixDot_ok de hde
    cases dy
    · have hc : c = (DirInfo.mk a f e p cs de c false st).agg := by
        rcases hcd with hcd | hcd
        · exact absurd hcd (by simp)
        · exact hcd
      refine ⟨?_, ?_, ?_⟩
      · simp only [DirInfo.fix, Bool.false_eq_true, if_neg, DirInfo.cache_mk]
        simpa using hc
      · simp [DirInfo.fix]
      · simp only [DirInfo.fix, Bool.false_eq_true, if_neg]
        exact h0
    · have hrc : (DirInfo.mk a f e p cs.fixAll de.fixDot c true st).recalcCache
          = (DirInfo.mk a f e p cs de c true st).agg := by
        simp only [DirInfo.recalcCache, DirInfo.agg]
        rw [hl.1]
        cases de with
        | none => rfl
        | some dd =>
          simp only [DotEntry.fixDot, DotEntry.aggAdd]
          rw [(DirInfo.fix_ok dd (by simpa [DotEntry.invDot] using hde)).1]
      refine ⟨?_, ?_, ?_⟩
      · simp only [DirInfo.fix, if_pos, DirInfo.cache_mk]
        exact hrc
      · simp [DirInfo.fix]
      · simp only [DirInfo.fix, if_pos]
        simp only [DirInfo.invB, Bool.and_eq_true, Bool.or_eq_true,
          decide_eq_true_eq]
        refine ⟨⟨Or.inr ?_, hl.2⟩, ho⟩
        rw [hrc]
        simp only [DirInfo.agg]
        rw [ChildList.aggSum_fix cs, DotEntry.aggAdd_fix de]

theorem ChildList.fixAll_ok : ∀ l : ChildList, l.invAll = true →
    (∀ acc : Cache, (l.fixAll).sumCaches acc = l.aggSum acc)
      ∧ (l.fixAll).invAll = true
  | .nil, _ => ⟨fun _ => rfl, rfl⟩
  | .cons h t, hinv => by
    simp only [ChildList.invAll, Bool.and_eq_true] at hinv
    have hh := FileInfo.fixNode_ok h hinv.1
    have ht := ChildList.fixAll_ok t hinv.2
    constructor
    · intro acc
      simp only [ChildList.fixAll, ChildList.sumCaches, ChildList.aggSum]
      rw [FileInfo.isDir_fix h, hh.1, ht.1]
    · simp only [ChildList.fixAll, ChildList.invAll, Bool.and_eq_true]
      exact ⟨hh.2, ht.2⟩

theorem DotEntry.fixDot_ok : ∀ o : DotEntry, o.invDot = true →
    (o.fixDot).invDot = true
  | .none, _ => rfl
  | .some dd, h => by
    simp only [DotEntry.invDot] at h
    simp only [DotEntry.fixDot, DotEntry.invDot]
    exact (DirInfo.fix_ok dd h).2.2

end

mutual

/-- The reference summary counts items as the descendant-node count that
skips dot entries themselves, and subdirectories as the descendant
container count that skips dot entries. -/
theorem FileInfo.aggNode_counts : ∀ t : FileInfo,
    t.agg.totalItems + 1 = t.itemNode
      ∧ t.agg.totalSubDirs + (if t.isDir then 1 else 0) = t.subDirNode
  | .file a => by
    simp [FileInfo.agg, FileInfo.itemNode, FileInfo.isDir, FileInfo.subDirNode,
      Attr.leafCache]
  | .dir d => by
    have hd := DirInfo.agg_counts d
    simp only [FileInfo.agg, FileInfo.itemNode, FileInfo.isDir,
      FileInfo.subDirNode, if_pos]
    omega

theorem DirInfo.agg_counts : ∀ d : DirInfo,
    d.agg.totalItems = d.itemBelow ∧ d.agg.totalSubDirs = d.subDirBelow
  | .mk a f e p cs de c dy st => by
    have hl := ChildList.aggSum_counts cs (Cache.init a)
    have ho := DotEntry.aggAdd_counts de (cs.aggSum (Cache.init a))
    simp only [DirInfo.agg, DirInfo.itemBelow, DirInfo.subDirBelow]
    rw [ho.1, ho.2, hl.1, hl.2]
    simp only [Cache.init]
    omega

theorem ChildList.aggSum_counts : ∀ (l : ChildList) (acc : Cache),
    (l.aggSum acc).totalItems = acc.totalItems + l.itemList
      ∧ (l.aggSum acc).totalSubDirs = acc.totalSubDirs + l.subDirList
  | .nil, acc => by simp [ChildList.aggSum, ChildList.itemList, ChildList.subDirList]
  | .cons h t, acc => by
    have hh := FileInfo.aggNode_counts h
    have ht := ChildList.aggSum_counts t (acc.addChild h.isDir h.agg)
    simp only [ChildList.aggSum, ChildList.itemList, ChildList.subDirList]
    rw [ht.1, ht.2]
    simp only [Cache.addChild]
    omega

theorem DotEntry.aggAdd_counts : ∀ (o : DotEntry) (acc : Cache),
    (DotEntry.aggAdd acc o).totalItems = acc.totalItems + o.itemDot
      ∧ (DotEntry.aggAdd acc o).totalSubDirs = acc.totalSubDirs + o.subDirDot
  | .none, acc => by simp [DotEntry.aggAdd, DotEntry.itemDot, DotEntry.subDirDot]
  | .some dd, acc => by
    have hd := DirInfo.agg_counts dd
    simp only [DotEntry.aggAdd, DotEntry.itemDot, DotEntry.subDirDot, Cache.addDot]
    omega

end

theorem ChildList.get_set : ∀ (l : ChildList) (n : Nat) (x y : FileInfo),
    l.get n = Option.some y → (l.set n x).get n = Option.some x
  | .cons _ _, 0, _, _, _ => rfl
  | .cons _ t, n+1, x, y, h => ChildList.get_set t n x y h
  | .nil, _, _, _, h => by simp [ChildList.get] at h

theorem ChildList.set_set : ∀ (l : ChildList) (n : Nat) (x y : FileInfo),
    (l.set n x).set n y = l.set n y
  | .nil, _, _, _ => rfl
  | .cons _ _, 0, _, _ => rfl
  | .cons h t, n+1, x, y => by
    simp only [ChildList.set]
    rw [ChildList.set_set t n x y]

theorem ChildList.set_get_self : ∀ (l : ChildList) (n : Nat) (y : FileInfo),
    l.get n = Option.some y → l.set n y = l
  | .cons _ _, 0, _, h => by
    simp only [ChildList.get, Option.some.injEq] at h
    simp [ChildList.set, h]
  | .cons hd t, n+1, y, h => by
    simp only [ChildList.set]
    rw [ChildList.set_get_self t n y h]
  | .nil, _, _, h => by simp [ChildList.get] at h

theorem ChildList.invAll_get : ∀ (l : ChildList) (n : Nat) (x : FileInfo),
    l.invAll = true → l.get n = Option.some x → x.invB = true
  | .cons h t, 0, x, hinv, hg => by
    simp only [ChildList.get, Option.some.injEq] at hg
    simp only [ChildList.invAll, Bool.and_eq_true] at hinv
    exact hg ▸ hinv.1
  | .cons h t, n+1, x, hinv, hg => by
    simp only [ChildList.invAll, Bool.and_eq_true] at hinv
    exact ChildList.invAll_get t n x hinv.2 hg
  | .nil, _, _, _, hg => by simp [ChildList.get] at hg

theorem ChildList.invAll_set : ∀ (l : ChildList) (n : Nat) (x : FileInfo),
    l.invAll = true → x.invB = true → (l.set n x).invAll = true
  | .nil, _, _, hinv, _ => hinv
  | .cons h t, 0, x, hinv, hx => by
    simp only [ChildList.invAll, Bool.and_eq_true] at hinv
    simp only [ChildList.set, ChildList.invAll, Bool.and_eq_true]
    exact ⟨hx, hinv.2⟩
  | .cons h t, n+1, x, hinv, hx => by
    simp only [ChildList.invAll, Bool.and_eq_true] at hinv
    simp only [ChildList.set, ChildList.invAll, Bool.and_eq_true]
    exact ⟨hinv.1, ChildList.invAll_set t n x hinv.2 hx⟩

/-- An excluded container refuses ingestion of further children. -/
theorem DirInfo.insertChild_excluded (d : DirInfo) (c : FileInfo)
    (h : d.isExcluded = true) : d.insertChild c = Except.error () := by
  match d with
  | .mk a f e p cs de cc dy st =>
    simp only [DirInfo.isExcluded_mk] at h
    simp [DirInfo.insertChild, h]

/-- A successful insertChild always marks the container dirty. -/
theorem DirInfo.insertChild_dirty : ∀ (d : DirInfo) (c : FileInfo) (d2 : DirInfo),
    d.insertChild c = Except.ok d2 → d2.summaryDirty = true
  | .mk a f e p cs de cc dy st, c, d2, h => by
    cases e
    · cases hcd : c.isDir
      · cases de with
        | some dd =>
          match dd with
          | .mk da df dex dp dcs dde dc ddy dst =>
            simp [DirInfo.insertChild, hcd] at h
            subst h; rfl
        | none =>
          cases hdc : cs.hasDirChild <;>
            (simp [DirInfo.insertChild, hcd, hdc] at h
             subst h; rfl)
      · simp [DirInfo.insertChild, hcd] at h
        subst h; rfl
    · simp [DirInfo.insertChild] at h

/-- A successful insertChild of a non-directory child leaves the container
either with no dot entry or with a dirty dot entry. -/
theorem DirInfo.insertChild_dotDirty : ∀ (d : DirInfo) (c : FileInfo) (d2 : DirInfo),
    c.isDir = false → d.insertChild c = Except.ok d2 →
    ∀ dd : DirInfo, d2.dotEntry = DotEntry.some dd → dd.summaryDirty = true
  | .mk a f e p cs de cc dy st, c, d2, hc, h => by
    cases e
    · cases de with
      | some dd =>
        match dd with
        | .mk da df dex dp dcs dde dc ddy dst =>
          simp [DirInfo.insertChild, hc] at h
          subst h
          intro dd2 hdd2
          simp only [DirInfo.dotEntry_mk, DotEntry.some.injEq] at hdd2
          subst hdd2; rfl
      | none =>
        cases hdc : cs.hasDirChild
        · simp [DirInfo.insertChild, hc, hdc] at h
          subst h
          intro dd2 hdd2
          simp only [DirInfo.dotEntry_mk] at hdd2
          exact absurd hdd2 (by simp)
        · simp [DirInfo.insertChild, hc, hdc] at h
          subst h
          intro dd2 hdd2
          simp only [DirInfo.dotEntry_mk, DotEntry.some.injEq] at hdd2
          subst hdd2; rfl
    · simp [DirInfo.insertChild] at h

/-- A successful insertChild preserves the reachable-state invariant when
the inserted child satisfies it. -/
theorem DirInfo.insertChild_inv : ∀ (d : DirInfo) (c : FileInfo) (d2 : DirInfo),
    d.invB = true → c.invB = true →
    d.insertChild c = Except.ok d2 → d2.invB = true
  | .mk a f e p cs de cc dy st, c, d2, hd, hc, h => by
    simp only [DirInfo.invB, Bool.and_eq_true] at hd
    obtain ⟨⟨_, hcs⟩, hde⟩ := hd
    cases e
    · cases hcd : c.isDir
      · cases de with
        | some dd =>
          match dd with
          | .mk da df dex dp dcs dde dc ddy dst =>
            simp [DirInfo.insertChild, hcd] at h
            subst h
            simp only [DotEntry.invDot, DirInfo.invB, Bool.and_eq_true] at hde
            obtain ⟨⟨_, hdcs⟩, hdde⟩ := hde
            simp only [DirInfo.invB, DotEntry.invDot, ChildList.invAll,
              Bool.and_eq_true]
            exact ⟨⟨by simp, hcs⟩, ⟨by simp, hc, hdcs⟩, hdde⟩
        | none =>
          cases hdc : cs.hasDirChild
          · simp [DirInfo.insertChild, hcd, hdc] at h
            subst h
            simp only [DirInfo.invB, ChildList.invAll, DotEntry.invDot,
              Bool.and_eq_true]
            exact ⟨⟨by simp, hc, hcs⟩, trivial⟩
          · simp [DirInfo.insertChild, hcd, hdc] at h
            subst h
            simp only [DirInfo.invB, DotEntry.invDot, DirInfo.newDotEntry,
              ChildList.invAll, Bool.and_eq_true]
            refine ⟨⟨by simp, hcs⟩, ⟨by simp, hc, trivial⟩, trivial⟩
      · simp [DirInfo.insertChild, hcd] at h
        subst h
        simp only [DirInfo.invB, ChildList.invAll, Bool.and_eq_true]
        exact ⟨⟨by simp, hc, hcs⟩, hde⟩
    · simp [DirInfo.insertChild] at h

theorem DirInfo.subDir_withSubDirty (d : DirInfo) (s : Step) (dd x : DirInfo)
    (h : d.subDir s = Option.some dd) :
    (d.withSubDirty s x).subDir s = Option.some x := by
  match d, s with
  | .mk a f e p cs de c dy st, .intoChild n =>
    simp only [DirInfo.subDir, DirInfo.children_mk] at h
    simp only [DirInfo.withSubDirty, DirInfo.subDir, DirInfo.children_mk]
    match hg : cs.get n, h with
    | Option.some (.dir y), h =>
      rw [ChildList.get_set cs n (.dir x) (.dir y) hg]
  | .mk a f e p cs de c dy st, .intoDot =>
    simp [DirInfo.withSubDirty, DirInfo.subDir]

theorem DirInfo.summaryDirty_withSubDirty (d : DirInfo) (s : Step) (x : DirInfo) :
    (d.withSubDirty s x).summaryDirty = true := by
  match d, s with
  | .mk a f e p cs de c dy st, .intoChild n => rfl
  | .mk a f e p cs de c dy st, .intoDot => rfl

theorem DirInfo.invB_withSubDirty (d : DirInfo) (s : Step) (x : DirInfo)
    (hd : d.invB = true) (hx : x.invB = true) :
    (d.withSubDirty s x).invB = true := by
  match d, s with
  | .mk a f e p cs de c dy st, .intoChild n =>
    simp only [DirInfo.invB, Bool.and_eq_true] at hd
    simp only [DirInfo.withSubDirty, DirInfo.invB, Bool.and_eq_true]
    refine ⟨⟨by simp, ?_⟩, hd.2⟩
    exact ChildList.invAll_set cs n (.dir x) hd.1.2 (by simpa [FileInfo.invB] using hx)
  | .mk a f e p cs de c dy st, .intoDot =>
    simp only [DirInfo.invB, Bool.and_eq_true] at hd
    simp only [DirInfo.withSubDirty, DirInfo.invB, DotEntry.invDot, Bool.and_eq_true]
    exact ⟨⟨by simp, hd.1.2⟩, hx⟩

/-- The combined effect of attaching a child at the end of a path: the whole
ancestor chain (endpoint included) is marked dirty, the invariant is
preserved, and whenever the endpoint has a dot entry after a non-directory
attach, that dot entry is dirty as well. -/
theorem DirInfo.attachAt_props : ∀ (p : List Step) (t : DirInfo) (c : FileInfo)
    (t2 : DirInfo), t.invB = true → c.invB = true →
    t.attachAt p c = Except.ok t2 →
    t2.dirtyChain p = true ∧ t2.invB = true
      ∧ (c.isDir = false → ∀ dd : DirInfo,
          t2.nodeAt (p ++ [Step.intoDot]) = Option.some dd →
          dd.summaryDirty = true)
  | [], t, c, t2, ht, hc, h => by
    simp only [DirInfo.attachAt] at h
    refine ⟨?_, DirInfo.insertChild_inv t c t2 ht hc h, ?_⟩
    · simpa [DirInfo.dirtyChain] using DirInfo.insertChild_dirty t c t2 h
    · intro hcd dd hdd
      refine DirInfo.insertChild_dotDirty t c t2 hcd h dd ?_
      simp only [List.nil_append, DirInfo.nodeAt, DirInfo.subDir] at hdd
      match hde : t2.dotEntry, hdd with
      | .some y, hdd =>
        simp only [DirInfo.nodeAt, Option.some.injEq] at hdd
        rw [hdd]
  | s :: rest, t, c, t2, ht, hc, h => by
    simp only [DirInfo.attachAt] at h
    cases hsub : t.subDir s with
    | none => rw [hsub] at h; simp at h
    | some dd =>
      rw [hsub] at h
      have h2 : (match dd.attachAt rest c with
          | Except.error u => Except.error u
          | Except.ok dd2 => Except.ok (t.withSubDirty s dd2)) = Except.ok t2 := h
      clear h
      cases hrec : dd.attachAt rest c with
      | error u => rw [hrec] at h2; simp at h2
      | ok dd2 =>
        rw [hrec] at h2
        simp only [Except.ok.injEq] at h2
        subst h2
        have hddinv : dd.invB = true := by
          match t, s, hsub with
          | .mk a f e p cs de cc dy st, .intoChild n, hsub =>
            simp only [DirInfo.subDir, DirInfo.children_mk] at hsub
            simp only [DirInfo.invB, Bool.and_eq_true] at ht
            match hg : cs.get n, hsub with
            | Option.some (.dir y), hsub =>
              simp only [Option.some.injEq] at hsub
              have := ChildList.invAll_get cs n (.dir y) ht.1.2 hg
              simp only [FileInfo.invB] at this
              exact hsub ▸ this
          | .mk a f e p cs de cc dy st, .intoDot, hsub =>
            simp only [DirInfo.subDir, DirInfo.dotEntry_mk] at hsub
            simp only [DirInfo.invB, Bool.and_eq_true] at ht
            match de, hsub with
            | .some y, hsub =>
              simp only [Option.some.injEq] at hsub
              have := ht.2
              simp only [DotEntry.invDot] at this
              exact hsub ▸ this
        have ih := DirInfo.attachAt_props rest dd c dd2 hddinv hc hrec
        have hsub2 := DirInfo.subDir_withSubDirty t s dd dd2 hsub
        refine ⟨?_, ?_, ?_⟩
        · simp only [DirInfo.dirtyChain, hsub2,
            DirInfo.summaryDirty_withSubDirty, Bool.true_and]
          exact ih.1
        · exact DirInfo.invB_withSubDirty t s dd2 ht ih.2.1
        · intro hcd dd3 hdd3
          simp only [List.cons_append, DirInfo.nodeAt, hsub2] at hdd3
          exact ih.2.2 hcd dd3 hdd3

theorem DirInfo.subDir_withSubK (d : DirInfo) (s : Step) (dd x : DirInfo)
    (h : d.subDir s = Option.some dd) :
    (d.withSubK s x).subDir s = Option.some x := by
  match d, s with
  | .mk a f e p cs de c dy st, .intoChild n =>
    simp only [DirInfo.subDir, DirInfo.children_mk] at h
    simp only [DirInfo.withSubK, DirInfo.subDir, DirInfo.children_mk]
    match hg : cs.get n, h with
    | Option.some (.dir y), h =>
      rw [ChildList.get_set cs n (.dir x) (.dir y) hg]
  | .mk a f e p cs de c dy st, .intoDot =>
    simp [DirInfo.withSubK, DirInfo.subDir]

theorem DirInfo.subDir_addPending (d : DirInfo) (s : Step) :
    (d.addPending).subDir s = d.subDir s := by
  match d, s with
  | .mk a f e p cs de c dy st, .intoChild n => rfl
  | .mk a f e p cs de c dy st, .intoDot => rfl

theorem DirInfo.pendingReadJobs_addPending (d : DirInfo) :
    (d.addPending).pendingReadJobs = d.pendingReadJobs + 1 := by
  match d with
  | .mk a f e p cs de c dy st => rfl

theorem DirInfo.pendingReadJobs_withSubK (d : DirInfo) (s : Step) (x : DirInfo) :
    (d.withSubK s x).pendingReadJobs = d.pendingReadJobs := by
  match d, s with
  | .mk a f e p cs de c dy st, .intoChild n => rfl
  | .mk a f e p cs de c dy st, .intoDot => rfl

/-- Restoring the original sub-container and subtracting the pending
increment undoes the effect of one propagation step. -/
theorem DirInfo.withSubK_undo (d : DirInfo) (s : Step) (dd x : DirInfo)
    (h : d.subDir s = Option.some dd) :
    (((d.withSubK s x).addPending).withSubK s dd).subPending = d := by
  match d, s with
  | .mk a f e p cs de c dy st, .intoChild n =>
    simp only [DirInfo.subDir, DirInfo.children_mk] at h
    simp only [DirInfo.withSubK, DirInfo.addPending, DirInfo.subPending]
    match hg : cs.get n, h with
    | Option.some (.dir y), h =>
      simp only [Option.some.injEq] at h
      subst h
      rw [ChildList.set_set cs n (.dir x) (.dir y),
        ChildList.set_get_self cs n (.dir y) hg]
      simp
  | .mk a f e p cs de c dy st, .intoDot =>
    simp only [DirInfo.subDir, DirInfo.dotEntry_mk] at h
    simp only [DirInfo.withSubK, DirInfo.addPending, DirInfo.subPending]
    match de, h with
    | .some y, h =>
      simp only [Option.some.injEq] at h
      rw [h]
      simp

/-- The combined effect of registering a read job at the end of a path:
every strict ancestor's pending counter grows by exactly one, the endpoint
counter is unchanged, and the matching finished / aborted notification
restores the original tree. -/
theorem DirInfo.readJobAddedAt_props : ∀ (p : List Step) (t t2 : DirInfo),
    t.readJobAddedAt p = Option.some t2 →
    (∀ q r : List Step, p = q ++ r → r ≠ [] →
        t2.pendingAt q = (t.pendingAt q).map (fun n => n + 1))
      ∧ t2.pendingAt p = t.pendingAt p
      ∧ t2.readJobFinishedAt p = Option.some t
  | [], t, t2, h => by
    simp only [DirInfo.readJobAddedAt, Option.some.injEq] at h
    subst h
    refine ⟨?_, rfl, rfl⟩
    intro q r hqr hr
    exact absurd (List.append_eq_nil.mp hqr.symm).2 hr
  | s :: rest, t, t2, h => by
    simp only [DirInfo.readJobAddedAt] at h
    cases hsub : t.subDir s with
    | none => rw [hsub] at h; simp at h
    | some dd =>
      rw [hsub] at h
      have h2 : (match dd.readJobAddedAt rest with
          | Option.none => Option.none
          | Option.some dd2 => Option.some ((t.withSubK s dd2).addPending))
            = Option.some t2 := h
      clear h
      cases hrec : dd.readJobAddedAt rest with
      | none => rw [hrec] at h2; simp at h2
      | some dd2 =>
        rw [hrec] at h2
        simp only [Option.some.injEq] at h2
        subst h2
        have ih := DirInfo.readJobAddedAt_props rest dd dd2 hrec
        have hsub2 : ((t.withSubK s dd2).addPending).subDir s = Option.some dd2 := by
          rw [DirInfo.subDir_addPending]
          exact DirInfo.subDir_withSubK t s dd dd2 hsub
        refine ⟨?_, ?_, ?_⟩
        · intro q r hqr hr
          cases q with
          | nil =>
            simp [DirInfo.pendingAt, DirInfo.pendingReadJobs_addPending,
              DirInfo.pendingReadJobs_withSubK]
          | cons s2 q2 =>
            simp only [List.cons_append, List.cons.injEq] at hqr
            obtain ⟨hs2, hrest⟩ := hqr
            subst hs2
            simp only [DirInfo.pendingAt, hsub2, hsub]
            exact ih.1 q2 r hrest hr
        · simp only [DirInfo.pendingAt, hsub2, hsub]
          exact ih.2.1
        · simp only [DirInfo.readJobFinishedAt, hsub2, ih.2.2]
          rw [DirInfo.withSubK_undo t s dd dd2 hsub]

/-- The invariant restricts to every sub-container. -/
theorem DirInfo.invB_subDir (d : DirInfo) (s : Step) (dd : DirInfo)
    (hd : d.invB = true) (hsub : d.subDir s = Option.some dd) :
    dd.invB = true := by
  match d, s, hsub with
  | .mk a f e p cs de cc dy st, .intoChild n, hsub =>
    simp only [DirInfo.subDir, DirInfo.children_mk] at hsub
    simp only [DirInfo.invB, Bool.and_eq_true] at hd
    match hg : cs.get n, hsub with
    | Option.some (.dir y), hsub =>
      simp only [Option.some.injEq] at hsub
      have := ChildList.invAll_get cs n (.dir y) hd.1.2 hg
      simp only [FileInfo.invB] at this
      exact hsub ▸ this
  | .mk a f e p cs de cc dy st, .intoDot, hsub =>
    simp only [DirInfo.subDir, DirInfo.dotEntry_mk] at hsub
    simp only [DirInfo.invB, Bool.and_eq_true] at hd
    match de, hsub with
    | .some y, hsub =>
      simp only [Option.some.injEq] at hsub
      have := hd.2
      simp only [DotEntry.invDot] at this
      exact hsub ▸ this

/-- The invariant restricts to every container reachable by a path. -/
theorem DirInfo.invB_nodeAt : ∀ (q : List Step) (d x : DirInfo),
    d.invB = true → d.nodeAt q = Option.some x → x.invB = true
  | [], d, x, hd, h => by
    simp only [DirInfo.nodeAt, Option.some.injEq] at h
    exact h ▸ hd
  | s :: q, d, x, hd, h => by
    simp only [DirInfo.nodeAt] at h
    cases hsub : d.subDir s with
    | none => rw [hsub] at h; simp at h
    | some dd =>
      rw [hsub] at h
      exact DirInfo.invB_nodeAt q dd x (DirInfo.invB_subDir d s dd hd hsub) h

/-- Dot-entry cleanup does not touch the read state. -/
theorem DirInfo.readState_cleanupDotEntries (d : DirInfo) :
    (d.cleanupDotEntries).readState = d.readState := by
  match d with
  | .mk a f e p cs de c dy st =>
    cases de with
    | none => rfl
    | some dd =>
      match dd with
      | .mk da df dex dp dcs dde dc ddy dst =>
        cases dcs with
        | nil => rfl
        | cons h t =>
          simp only [DirInfo.cleanupDotEntries]
          cases cs.hasDirChild <;> simp

/-- endRead records exactly the requested terminal state. -/
theorem DirInfo.readState_endReadLocal (d : DirInfo) (st : KDirReadState) :
    (d.endReadLocal st).readState = st := by
  unfold DirInfo.endReadLocal DirInfo.finalizeLocal
  rw [DirInfo.readState_cleanupDotEntries]
  match d with
  | .mk a f e p cs de c dy st0 => rfl

end QDirStat

namespace QDirStatSettings

theorem find_map_pres {α : Type} (p : α → Bool) (f : α → α)
    (h1 : ∀ x, p (f x) = p x) :
    ∀ l : List α, (l.map f).find? p = (l.find? p).map f
  | [] => rfl
  | a :: l => by
    cases hpa : p a with
    | true =>
      rw [List.map_cons, List.find?_cons_of_pos _ (by rw [h1 a]; exact hpa),
        List.find?_cons_of_pos _ hpa, Option.map_some']
    | false =>
      rw [List.map_cons, List.find?_cons_of_neg _ (by simp [h1 a, hpa]),
        List.find?_cons_of_neg _ (by simp [hpa]), find_map_pres p f h1 l]

theorem find_map_fix {α : Type} (p : α → Bool) (f : α → α)
    (h1 : ∀ x, p (f x) = p x) (h2 : ∀ x, p x = true → f x = x)
    (l : List α) : (l.map f).find? p = l.find? p := by
  rw [find_map_pres p f h1 l]
  cases hf : l.find? p with
  | none => rfl
  | some a => rw [Option.map_some', h2 a (List.find?_some hf)]

theorem find_of_any_false {α : Type} (p : α → Bool) (l : List α)
    (h : l.any p = false) : l.find? p = Option.none := by
  rw [List.find?_eq_none]
  intro x hx hpx
  have h2 : l.any p = true := List.any_eq_true.mpr ⟨x, hx, hpx⟩
  rw [h] at h2
  exact absurd h2 (by simp)

/-- Setting a key makes it present with the new value. -/
theorem setKey_find_self (l : List (String × String)) (k v : String) :
    (setKey l k v).find? (fun q => q.fst = k) = Option.some (k, v) := by
  unfold setKey
  cases hany : l.any (fun q => q.fst = k) with
  | true =>
    rw [if_pos rfl]
    rw [find_map_pres (fun q => q.fst = k)
      (fun q => if q.fst = k then (k, v) else q)
      (by intro x; by_cases hx : x.fst = k <;> simp [hx])]
    rw [List.any_eq_true] at hany
    obtain ⟨x, hx, hpx⟩ := hany
    cases hf : l.find? (fun q => q.fst = k) with
    | none =>
      rw [List.find?_eq_none] at hf
      exact absurd hpx (hf x hx)
    | some q =>
      have hq := List.find?_some hf
      simp only [decide_eq_true_eq] at hq
      simp [hq]
  | false =>
    rw [if_neg (by simp)]
    rw [List.find?_append, find_of_any_false _ l hany]
    simp

/-- Setting one key does not disturb another key. -/
theorem setKey_find_other (l : List (String × String)) (k v k2 : String)
    (hk : k2 ≠ k) :
    (setKey l k v).find? (fun q => q.fst = k2) = l.find? (fun q => q.fst = k2) := by
  unfold setKey
  cases hany : l.any (fun q => q.fst = k) with
  | true =>
    rw [if_pos rfl]
    refine find_map_fix _ _ ?_ ?_ l
    · intro x; by_cases hx : x.fst = k <;> simp [hx, hk, Ne.symm hk]
    · intro x hx
      simp only [decide_eq_true_eq] at hx
      simp [hx, hk]
  | false =>
    rw [if_neg (by simp)]
    rw [List.find?_append]
    have : ([(k, v)].find? (fun q => q.fst = k2)) = Option.none := by
      simp [List.find?, Ne.symm hk]
    rw [this]
    cases l.find? (fun q => q.fst = k2) <;> rfl

/-- Setting a value makes it readable. -/
theorem valueOf_setValue_self (s : SettingsState) (g k v : String) :
    valueOf (setValue s g k v) g k = Option.some v := by
  unfold valueOf groupEntries setValue
  cases hany : s.groups.any (fun q => q.fst = g) with
  | true =>
    rw [if_pos rfl]
    simp only
    rw [find_map_pres (fun q => q.fst = g)
      (fun q => if q.fst = g then (q.fst, setKey q.snd k v) else q)
      (by intro x; by_cases hx : x.fst = g <;> simp [hx])]
    rw [List.any_eq_true] at hany
    obtain ⟨x, hx, hpx⟩ := hany
    cases hf : s.groups.find? (fun q => q.fst = g) with
    | none =>
      rw [List.find?_eq_none] at hf
      exact absurd hpx (hf x hx)
    | some q =>
      have hq := List.find?_some hf
      simp only [decide_eq_true_eq] at hq
      simp only [Option.map_some', if_pos hq]
      rw [setKey_find_self q.snd k v]
  | false =>
    rw [if_neg (by simp)]
    simp only
    rw [List.find?_append, find_of_any_false _ s.groups hany]
    simp [List.find?]

/-- Setting a value in one group does not disturb reads from another
group. -/
theorem valueOf_setValue_other_group (s : SettingsState) (g k v g2 k2 : String)
    (hg : g2 ≠ g) :
    valueOf (setValue s g k v) g2 k2 = valueOf s g2 k2 := by
  unfold valueOf groupEntries setValue
  cases hany : s.groups.any (fun q => q.fst = g) with
  | true =>
    rw [if_pos rfl]
    simp only
    rw [find_map_fix (fun q => q.fst = g2)
      (fun q => if q.fst = g then (q.fst, setKey q.snd k v) else q)
      (by intro x; by_cases hx : x.fst = g <;> simp [hx])
      (by
        intro x hx
        simp only [decide_eq_true_eq] at hx
        simp [hx, hg])]
  | false =>
    rw [if_neg (by simp)]
    simp only
    rw [List.find?_append]
    have : ([(g, [(k, v)])].find? (fun q => q.fst = g2)) = Option.none := by
      simp [List.find?, Ne.symm hg]
    rw [this]
    cases s.groups.find? (fun q => q.fst = g2) <;> rfl

/-- Setting one key does not disturb reads of another key in the same
group. -/
theorem valueOf_setValue_other_key (s : SettingsState) (g k v k2 : String)
    (hk : k2 ≠ k) :
    valueOf (setValue s g k v) g k2 = valueOf s g k2 := by
  unfold valueOf groupEntries setValue
  cases hany : s.groups.any (fun q => q.fst = g) with
  | true =>
    rw [if_pos rfl]
    simp only
    rw [find_map_pres (fun q => q.fst = g)
      (fun q => if q.fst = g then (q.fst, setKey q.snd k v) else q)
      (by intro x; by_cases hx : x.fst = g <;> simp [hx])]
    cases hf : s.groups.find? (fun q => q.fst = g) with
    | none => rfl
    | some q =>
      have hq := List.find?_some hf
      simp only [decide_eq_true_eq] at hq
      simp only [Option.map_some', if_pos hq]
      rw [setKey_find_other q.snd k v k2 hk]
  | false =>
    rw [if_neg (by simp)]
    simp only
    rw [List.find?_append, find_of_any_false _ s.groups hany]
    simp [List.find?, Ne.symm hk]

/-- A key whose value is already the source value stays at that value
through the whole key-copy loop of one group. -/
theorem copyGroup_fold_keep (src : SettingsState) (g k v : String)
    (hv : valueOf src g k = Option.some v) :
    ∀ (ks : List String) (acc : SettingsState),
      valueOf acc g k = Option.some v →
      valueOf (ks.foldl
        (fun acc2 k2 =>
          match valueOf src g k2 with
          | Option.some v2 => setValue acc2 g k2 v2
          | Option.none => acc2) acc) g k = Option.some v
  | [], acc, hacc => hacc
  | k2 :: ks, acc, hacc => by
    rw [List.foldl_cons]
    refine copyGroup_fold_keep src g k v hv ks _ ?_
    by_cases hk2 : k = k2
    · subst hk2
      rw [hv]
      simp only
      rw [valueOf_setValue_self]
    · cases hsrc : valueOf src g k2 with
      | none => simpa using hacc
      | some v2 =>
        simp only
        rw [valueOf_setValue_other_key _ _ _ _ _ hk2]
        exact hacc

/-- Any key of the copied list ends up holding the source value after the
key-copy loop of one group. -/
theorem copyGroup_fold_mem (src : SettingsState) (g k v : String)
    (hv : valueOf src g k = Option.some v) :
    ∀ (ks : List String) (acc : SettingsState), k ∈ ks →
      valueOf (ks.foldl
        (fun acc2 k2 =>
          match valueOf src g k2 with
          | Option.some v2 => setValue acc2 g k2 v2
          | Option.none => acc2) acc) g k = Option.some v
  | [], _, hmem => absurd hmem (List.not_mem_nil k)
  | k2 :: ks, acc, hmem => by
    rw [List.foldl_cons]
    by_cases hk2 : k = k2
    · subst hk2
      refine copyGroup_fold_keep src g k v hv ks _ ?_
      rw [hv]
      simp only
      rw [valueOf_setValue_self]
    · exact copyGroup_fold_mem src g k v hv ks _
        (by cases List.mem_cons.mp hmem with
            | inl h => exact absurd h hk2
            | inr h => exact h)

/-- Copying a group keeps every key of that group at the source value. -/
theorem valueOf_copyGroup_self (src : SettingsState) (g k v : String)
    (dst : SettingsState) (hv : valueOf src g k = Option.some v)
    (hk : k ∈ allKeys src g) :
    valueOf (copyGroup src g dst) g k = Option.some v :=
  copyGroup_fold_mem src g k v hv (allKeys src g) dst hk

/-- Copying one group does not disturb reads from another group. -/
theorem valueOf_copyGroup_other (src : SettingsState) (g2 g k : String)
    (hg : g ≠ g2) :
    ∀ (ks : List String) (acc : SettingsState),
      valueOf (ks.foldl
        (fun acc2 k2 =>
          match valueOf src g2 k2 with
          | Option.some v2 => setValue acc2 g2 k2 v2
          | Option.none => acc2) acc) g k = valueOf acc g k
  | [], _ => rfl
  | k2 :: ks, acc => by
    rw [List.foldl_cons]
    rw [valueOf_copyGroup_other src g2 g k hg ks _]
    cases hsrc : valueOf src g2 k2 with
    | none => rfl
    | some v2 =>
      simp only
      rw [valueOf_setValue_other_group _ _ _ _ _ _ hg]

/-- A key already holding its source value keeps it through the group-copy
loop. -/
theorem moveGroups_fold_keep (src : SettingsState) (g k v : String)
    (hv : valueOf src g k = Option.some v) :
    ∀ (gs : List String) (acc : SettingsState),
      valueOf acc g k = Option.some v →
      valueOf (gs.foldl (fun acc2 g2 => copyGroup src g2 acc2) acc) g k
        = Option.some v
  | [], _, hacc => hacc
  | g2 :: gs, acc, hacc => by
    rw [List.foldl_cons]
    refine moveGroups_fold_keep src g k v hv gs _ ?_
    by_cases hg2 : g = g2
    · subst hg2
      unfold copyGroup
      exact copyGroup_fold_keep src g k v hv (allKeys src g) acc hacc
    · unfold copyGroup
      rw [valueOf_copyGroup_other src g2 g k hg2 (allKeys src g2) acc]
      exact hacc

/-- Any key present in the source group keeps its source value through the
whole group-copy loop, provided its group is among the copied groups. -/
theorem moveGroups_fold_mem (src : SettingsState) (g k v : String)
    (hv : valueOf src g k = Option.some v) (hk : k ∈ allKeys src g) :
    ∀ (gs : List String) (acc : SettingsState), g ∈ gs →
      valueOf (gs.foldl (fun acc2 g2 => copyGroup src g2 acc2) acc) g k
        = Option.some v
  | [], _, hmem => absurd hmem (List.not_mem_nil g)
  | g2 :: gs, acc, hmem => by
    rw [List.foldl_cons]
    by_cases hg2 : g ∈ gs
    · exact moveGroups_fold_mem src g k v hv hk gs _ hg2
    · have hg : g = g2 := by
        cases List.mem_cons.mp hmem with
        | inl h => exact h
        | inr h => exact absurd h hg2
      subst hg
      refine moveGroups_fold_keep src g k v hv gs _ ?_
      exact valueOf_copyGroup_self src g k v acc hv hk

/-- A key present in a group has a value. -/
theorem mem_allKeys_valueOf (s : SettingsState) (g k : String)
    (hk : k ∈ allKeys s g) : ∃ v, valueOf s g k = Option.some v := by
  unfold allKeys at hk
  rw [List.mem_map] at hk
  obtain ⟨q, hq, hfst⟩ := hk
  unfold valueOf
  cases hf : (groupEntries s g).find? (fun q2 => q2.fst = k) with
  | none =>
    rw [List.find?_eq_none] at hf
    exact absurd (by simp [hfst]) (hf q hq)
  | some q2 => exact ⟨q2.snd, rfl⟩

/-- After removeGroups no group with the prefix is left. -/
theorem hasGroup_removeGroups (gp : String) (s : SettingsState) :
    hasGroup gp (removeGroups gp s) = false := by
  unfold hasGroup removeGroups childGroups
  rw [Bool.eq_false_iff]
  intro h
  rw [List.any_eq_true] at h
  obtain ⟨g, hg, hstart⟩ := h
  rw [List.mem_map] at hg
  obtain ⟨q, hq, hfst⟩ := hg
  rw [List.mem_filter] at hq
  rw [← hfst] at hstart
  simp [hstart] at hq

end QDirStatSettings

open QDirStat QDirStatSettings

/-- C1 (counterexample): the claim fails as stated.  sampleTree is a fully
settled container satisfying the caching invariant; its totalItems answers
2, but the number of its descendant nodes excluding itself is 3: the dot
entry is a (synthetic container) node below it, and totalItems does not
count dot entries themselves. -/
theorem C1_counterexample :
    sampleTree.invB = true ∧ sampleTree.settled = true
      ∧ (sampleTree.totalItems).fst = 2
      ∧ sampleTree.belowCount = 3
      ∧ (sampleTree.totalItems).fst ≠ sampleTree.belowCount := by
  decide

/-- C1 (amended): for every container whose subtree is fully settled and
whose caches satisfy the clean-cache invariant, totalItems equals the
number of descendant nodes excluding the container itself and excluding
dot entries themselves (dot-entry children are counted), and totalSubDirs
equals the number of descendant container nodes excluding dot entries. -/
theorem C1_amended_counts (d : DirInfo) (hinv : d.invB = true)
    (_hset : d.settled = true) :
    (d.totalItems).fst = d.itemBelow
      ∧ (d.totalSubDirs).fst = d.subDirBelow := by
  have hfix := DirInfo.fix_ok d hinv
  have hcnt := DirInfo.agg_counts d
  constructor
  · show (d.fix).cache.totalItems = d.itemBelow
    rw [hfix.1, hcnt.1]
  · show (d.fix).cache.totalSubDirs = d.subDirBelow
    rw [hfix.1, hcnt.2]

/-- C1 (witness): the amended statement evaluated on sampleTree. -/
theorem C1_witness :
    sampleTree.invB = true ∧ sampleTree.settled = true
      ∧ (sampleTree.totalItems).fst = sampleTree.itemBelow
      ∧ (sampleTree.totalSubDirs).fst = sampleTree.subDirBelow :=
  ⟨by decide, by decide,
   (C1_amended_counts sampleTree (by decide) (by decide)).1,
   (C1_amended_counts sampleTree (by decide) (by decide)).2⟩

/-- C2: calling any of the six total* queries twice in a row without an
intervening mutation returns the identical answer and state both times,
and the dirty flag is already clear after the first call (so the second
call performs no recomputation) and stays clear. -/
theorem C2_idempotent_queries (d : DirInfo) :
    (d.totalSize).snd.totalSize = d.totalSize
      ∧ (d.totalBlocks).snd.totalBlocks = d.totalBlocks
      ∧ (d.totalItems).snd.totalItems = d.totalItems
      ∧ (d.totalSubDirs).snd.totalSubDirs = d.totalSubDirs
      ∧ (d.totalFiles).snd.totalFiles = d.totalFiles
      ∧ (d.latestMtime).snd.latestMtime = d.latestMtime
      ∧ (d.totalSize).snd.summaryDirty = false
      ∧ (d.totalBlocks).snd.summaryDirty = false
      ∧ (d.totalItems).snd.summaryDirty = false
      ∧ (d.totalSubDirs).snd.summaryDirty = false
      ∧ (d.totalFiles).snd.summaryDirty = false
      ∧ (d.latestMtime).snd.summaryDirty = false := by
  have h1 := DirInfo.fix_fix d
  have h2 := DirInfo.fix_summaryDirty d
  refine ⟨?_, ?_, ?_, ?_, ?_, ?_, h2, h2, h2, h2, h2, h2⟩ <;>
    simp [DirInfo.totalSize, DirInfo.totalBlocks, DirInfo.totalItems,
      DirInfo.totalSubDirs, DirInfo.totalFiles, DirInfo.latestMtime, h1]

/-- C3: attaching a node at any path marks every strict ancestor of the new
node dirty: the whole chain from the root down to the attach target, and
also the dot entry when a non-directory child is routed into it.  The
invariant that every clean container's caches equal the full recursive
recomputation is preserved, so the very next aggregate read on any
container of the new tree (each ancestor included) answers the new tree's
reference summary, which includes the newly attached descendant. -/
theorem C3_dirty_propagation (t : DirInfo) (p : List Step) (c : FileInfo)
    (t2 : DirInfo) (ht : t.invB = true) (hc : c.invB = true)
    (h : t.attachAt p c = Except.ok t2) :
    t2.dirtyChain p = true
      ∧ (c.isDir = false → ∀ dd : DirInfo,
          t2.nodeAt (p ++ [Step.intoDot]) = Option.some dd →
          dd.summaryDirty = true)
      ∧ t2.invB = true
      ∧ (∀ (q : List Step) (x : DirInfo), t2.nodeAt q = Option.some x →
          (x.fix).cache = x.agg) := by
  have hp := DirInfo.attachAt_props p t c t2 ht hc h
  refine ⟨hp.1, hp.2.2, hp.2.1, ?_⟩
  intro q x hq
  exact (DirInfo.fix_ok x (DirInfo.invB_nodeAt q t2 x hp.2.1 hq)).1

/-- C3 (witness): attaching a file to sampleTree routes it into the dot
entry; the root and the dot entry are dirty afterwards and the invariant
holds. -/
theorem C3_witness :
    sampleTreeAttached.dirtyChain [] = true
      ∧ sampleDotPlus.summaryDirty = true
      ∧ sampleTreeAttached.invB = true :=
  have h := C3_dirty_propagation sampleTree [] (.file ⟨5, 2, 30⟩)
    sampleTreeAttached (by decide) (by decide) (by rfl)
  ⟨h.1, h.2.1 (by decide) sampleDotPlus (by decide), h.2.2.1⟩

/-- C4: registering a read job on the directory at a path adds exactly one
to the pending counter of every strict ancestor, leaves the directory's
own counter unchanged, and the matching readJobFinished (and
readJobAborted, which propagates identically) restores the original tree
exactly, every counter included. -/
theorem C4_pending_propagation (t : DirInfo) (p : List Step) (t2 : DirInfo)
    (h : t.readJobAddedAt p = Option.some t2) :
    (∀ q r : List Step, p = q ++ r → r ≠ [] →
        t2.pendingAt q = (t.pendingAt q).map (fun n => n + 1))
      ∧ t2.pendingAt p = t.pendingAt p
      ∧ t2.readJobFinishedAt p = Option.some t
      ∧ t2.readJobAbortedAt p = Option.some t := by
  have hp := DirInfo.readJobAddedAt_props p t t2 h
  exact ⟨hp.1, hp.2.1, hp.2.2, hp.2.2⟩

/-- C4 (witness): a read job on sampleTree's subdirectory child bumps only
the root counter and is undone by readJobFinished. -/
theorem C4_witness :
    sampleTreeJob.pendingAt [] = (sampleTree.pendingAt []).map (fun n => n + 1)
      ∧ sampleTreeJob.pendingAt [Step.intoChild 0]
          = sampleTree.pendingAt [Step.intoChild 0]
      ∧ sampleTreeJob.readJobFinishedAt [Step.intoChild 0]
          = Option.some sampleTree :=
  have h := C4_pending_propagation sampleTree [Step.intoChild 0] sampleTreeJob
    (by decide)
  ⟨h.1 [] [Step.intoChild 0] rfl (by decide), h.2.1, h.2.2.1⟩

/-- C5: dot-entry cleanup at finalization: an empty dot entry is deleted
(children unchanged); a non-empty dot entry of a container without any
subdirectory child has all its children reparented onto the container and
is deleted; a non-empty dot entry of a container with at least one
subdirectory child is kept, the container unchanged. -/
theorem C5_cleanup_dot_entries (d dd : DirInfo)
    (h : d.dotEntry = DotEntry.some dd) :
    (dd.children = ChildList.nil →
        (d.cleanupDotEntries).dotEntry = DotEntry.none
          ∧ (d.cleanupDotEntries).children = d.children)
      ∧ (dd.children ≠ ChildList.nil → d.children.hasDirChild = false →
        (d.cleanupDotEntries).dotEntry = DotEntry.none
          ∧ (d.cleanupDotEntries).children = d.children.concat dd.children)
      ∧ (dd.children ≠ ChildList.nil → d.children.hasDirChild = true →
        d.cleanupDotEntries = d) := by
  match d with
  | .mk a f e p cs de c dy st =>
    simp only [DirInfo.dotEntry_mk] at h
    subst h
    match dd with
    | .mk da df dex dp dcs dde dc ddy dst =>
      cases dcs with
      | nil =>
        exact ⟨fun _ => ⟨rfl, rfl⟩,
          fun hne _ => absurd rfl hne,
          fun hne _ => absurd rfl hne⟩
      | cons x xs =>
        cases hdc : cs.hasDirChild with
        | false =>
          refine ⟨fun hnil => absurd hnil (by simp), fun _ _ => ⟨?_, ?_⟩,
            fun _ hdc2 => by simp [hdc] at hdc2⟩
          · simp [DirInfo.cleanupDotEntries, hdc]
          · simp [DirInfo.cleanupDotEntries, hdc]
        | true =>
          refine ⟨fun hnil => absurd hnil (by simp),
            fun _ hdc2 => by simp [hdc] at hdc2, fun _ _ => ?_⟩
          simp [DirInfo.cleanupDotEntries, hdc]

/-- C5 (witness): sampleTree has a subdirectory child and a non-empty dot
entry, so cleanup keeps everything. -/
theorem C5_witness :
    sampleTree.dotEntry = DotEntry.some sampleDot
      ∧ sampleTree.cleanupDotEntries = sampleTree :=
  ⟨rfl, (C5_cleanup_dot_entries sampleTree sampleDot rfl).2.2
    (by decide) (by decide)⟩

/-- C6: isBusy holds exactly when the container is not excluded and either
its own state is queued or reading or some descendant job is outstanding;
isFinished is the negation of isBusy; an excluded container is always
finished. -/
theorem C6_busy_finished (d : DirInfo) :
    (d.isBusy = true ↔ (d.isExcluded = false
        ∧ (d.readState = KDirReadState.queued
            ∨ d.readState = KDirReadState.reading
            ∨ 0 < d.pendingReadJobs)))
      ∧ d.isFinished = !d.isBusy
      ∧ (d.isExcluded = true → d.isFinished = true) := by
  refine ⟨?_, rfl, ?_⟩
  · match d with
    | .mk a f e p cs de c dy st =>
      cases e <;> cases st <;>
        simp [DirInfo.isBusy, KDirReadState.nonTerminal]
  · intro hex
    match d with
    | .mk a f e p cs de c dy st =>
      simp only [DirInfo.isExcluded_mk] at hex
      subst hex
      simp [DirInfo.isFinished, DirInfo.isBusy]

/-- C6 (witness): the excluded sample container is finished despite being
in the reading state. -/
theorem C6_witness :
    sampleExcluded.isExcluded = true ∧ sampleExcluded.isFinished = true :=
  ⟨rfl, (C6_busy_finished sampleExcluded).2.2 rfl⟩

/-- C7: once a container is excluded, insertChild refuses with a logic
error; no updated container is ever produced, so the child list stays as it
was. -/
theorem C7_excluded_refuses (d : DirInfo) (c : FileInfo)
    (h : d.isExcluded = true) :
    d.insertChild c = Except.error ()
      ∧ ∀ d2 : DirInfo, d.insertChild c ≠ Except.ok d2 := by
  refine ⟨DirInfo.insertChild_excluded d c h, ?_⟩
  intro d2 hok
  rw [DirInfo.insertChild_excluded d c h] at hok
  simp at hok

/-- C7 (witness): inserting into the excluded sample container errors. -/
theorem C7_witness :
    sampleExcluded.insertChild (.file ⟨50, 4, 10⟩) = Except.error () :=
  (C7_excluded_refuses sampleExcluded (.file ⟨50, 4, 10⟩) rfl).1

/-- C8: endRead records exactly the requested terminal state, and the
concrete abort scenario (beginRead on a root, two children attached,
endRead aborted) leaves the root in state aborted with totalItems 2: the
partial results are retained. -/
theorem C8_abort_scenario :
    (∀ (d : DirInfo) (st : KDirReadState), (d.endReadLocal st).readState = st)
      ∧ abortScenarioRoot.map (fun r => (r.readState, (r.totalItems).fst))
          = Except.ok (KDirReadState.aborted, 2) :=
  ⟨DirInfo.readState_endReadLocal, by rfl⟩

/-- C9: moveGroups always ends with every prefix-matching group removed
from the source; when the destination already has a prefix-matching group
nothing is copied (the destination is unchanged); when it has none, every
key of every prefix-matching source group is readable in the destination
with its source value. -/
theorem C9_moveGroups (gp : String) (src dst : SettingsState) :
    (moveGroups gp src dst).fst = removeGroups gp src
      ∧ hasGroup gp ((moveGroups gp src dst).fst) = false
      ∧ (hasGroup gp dst = true → (moveGroups gp src dst).snd = dst)
      ∧ (hasGroup gp dst = false →
          ∀ g, g ∈ findGroups gp src → ∀ k, k ∈ allKeys src g →
          ∃ v, valueOf src g k = Option.some v
            ∧ valueOf ((moveGroups gp src dst).snd) g k = Option.some v) := by
  refine ⟨rfl, hasGroup_removeGroups gp src, ?_, ?_⟩
  · intro hg
    unfold moveGroups
    simp [hg]
  · intro hg g hgmem k hkmem
    obtain ⟨v, hv⟩ := mem_allKeys_valueOf src g k hkmem
    refine ⟨v, hv, ?_⟩
    unfold moveGroups
    simp only [hg, Bool.false_eq_true, if_false]
    exact moveGroups_fold_mem src g k v hv hkmem (findGroups gp src) dst hgmem

/-- C9 (witness): migrating the Cleanup_ groups of a sample source into an
empty destination copies the key and clears the source. -/
theorem C9_witness :
    hasGroup "Cleanup_" sampleDst = false
      ∧ (moveGroups "Cleanup_" sampleSrc sampleDst).fst
          = removeGroups "Cleanup_" sampleSrc
      ∧ (∃ v, valueOf sampleSrc "Cleanup_01" "cmd" = Option.some v
          ∧ valueOf ((moveGroups "Cleanup_" sampleSrc sampleDst).snd)
              "Cleanup_01" "cmd" = Option.some v) :=
  have h := C9_moveGroups "Cleanup_" sampleSrc sampleDst
  ⟨by decide, h.1,
   h.2.2.2 (by decide) "Cleanup_01" (by decide) "cmd" (by decide)⟩

/-- C10: fixFileOwner chowns exactly when both SUDO_UID and SUDO_GID are
non-empty; with either empty it only logs a warning; and fixFileOwners
does nothing at all when not running with sudo. -/
theorem C10_fixFileOwner (u g f : String) :
    (u.isEmpty = false → g.isEmpty = false →
        fixFileOwner u g f
          = [OwnerAction.chownCall f (qstringToInt u) (qstringToInt g)])
      ∧ (u.isEmpty = true ∨ g.isEmpty = true →
        fixFileOwner u g f = [OwnerAction.logWarn])
      ∧ ((∃ a ∈ fixFileOwner u g f, a.isChown = true)
          ↔ u.isEmpty = false ∧ g.isEmpty = false)
      ∧ (∀ (files : List String) (su sg : String),
          fixFileOwners false su sg files = []) := by
  refine ⟨?_, ?_, ?_, ?_⟩
  · intro hu hg
    simp [fixFileOwner, hu, hg]
  · intro h
    unfold fixFileOwner
    rcases h with h | h <;> simp [h]
  · cases hu : u.isEmpty <;> cases hg : g.isEmpty <;>
      simp [fixFileOwner, OwnerAction.isChown, hu, hg]
  · intro files su sg
    simp [fixFileOwners]

/-- C10 (witness): with both variables set a chown is emitted; with
SUDO_UID empty only a warning; without sudo nothing happens. -/
theorem C10_witness :
    fixFileOwner "1000" "1000" "QDirStat.conf"
        = [OwnerAction.chownCall "QDirStat.conf"
            (qstringToInt "1000") (qstringToInt "1000")]
      ∧ fixFileOwner "" "1000" "QDirStat.conf" = [OwnerAction.logWarn]
      ∧ fixFileOwners false "1000" "1000" ["QDirStat.conf"] = [] :=
  have h1 := C10_fixFileOwner "1000" "1000" "QDirStat.conf"
  have h2 := C10_fixFileOwner "" "1000" "QDirStat.conf"
  ⟨h1.1 (by decide) (by decide), h2.2.1 (Or.inl (by decide)),
   h1.2.2.2 ["QDirStat.conf"] "1000" "1000"⟩
